import Mathlib

/-
Verification of the treesort-cladeset-mapping repository (src/mapper.py).

The Python source is shallowly embedded below:
  * strings are Lean `String` / `List Char`, Python `str.strip` / `str.split`
    are modelled by executable Lean functions with the same semantics;
  * dendropy trees are modelled by the rose tree `PTree`: a leaf carries the
    taxon label of its `taxon` object, an internal node carries its optional
    `node.label`;
  * Python dicts are modelled as association lists in insertion order, where
    assignment to an existing key replaces its value in place and lookup
    returns the most recent binding;
  * `random.choice` on a leaf set is modelled by an explicit choice argument
    (the source only guarantees the chosen element is a member of the set);
  * floats (the confidence values and the 0.95 threshold) are modelled by `ℚ`;
  * raising an exception is modelled by `Except`.
-/

/-! ### Python string primitives (str.strip, str.split) -/

/-- The characters of Python `str.strip()` default whitespace. -/
def isPyWs (c : Char) : Bool :=
  c = ' ' || c = '\t' || c = '\n' || c = '\x0b' || c = '\x0c' || c = '\r'

/-- The characters stripped by `strip("'\"")` in `normalize_taxon_label`. -/
def isQuoteChar (c : Char) : Bool :=
  c = '\'' || c = '"'

/-- Python `s.strip(chars)`: remove leading and trailing characters
satisfying `p`. -/
def pyStripIf (p : Char → Bool) (cs : List Char) : List Char :=
  ((cs.dropWhile p).reverse.dropWhile p).reverse

/-- Python `s.split(sep)` for a one-character separator: always returns at
least one (possibly empty) piece. -/
def pySplitOn (sep : Char) : List Char → List (List Char)
  | [] => [[]]
  | c :: rest =>
    match pySplitOn sep rest with
    | [] => [[]]
    | h :: t => if c = sep then [] :: h :: t else (c :: h) :: t

/-! ### `normalize_taxon_label` (mapper.py lines 17-33) -/

/-- mapper.py lines 17-33.  `if not label: return label`; strip whitespace,
strip quotes, split on `'|'`; if at least two fields, rejoin the first two;
otherwise return the cleaned label. -/
def normalize_taxon_label (label : String) : String :=
  if label = "" then label
  else
    let clean := pyStripIf isQuoteChar (pyStripIf isPyWs label.toList)
    match pySplitOn '|' clean with
    | p0 :: p1 :: _ => (p0 ++ '|' :: p1).asString
    | _ => clean.asString

/-! #### Lemmas about the string primitives -/

theorem dropWhile_eq_self_of_all {p : Char → Bool} {cs : List Char}
    (h : ∀ c ∈ cs, p c = false) : cs.dropWhile p = cs := by
  cases cs with
  | nil => rfl
  | cons c rest => simp [List.dropWhile, h c (List.mem_cons_self c rest)]

theorem pyStripIf_eq_self {p : Char → Bool} {cs : List Char}
    (h : ∀ c ∈ cs, p c = false) : pyStripIf p cs = cs := by
  unfold pyStripIf
  rw [dropWhile_eq_self_of_all h]
  rw [dropWhile_eq_self_of_all (by intro c hc; exact h c (List.mem_reverse.mp hc))]
  exact List.reverse_reverse cs

theorem pySplitOn_ne_nil (sep : Char) (cs : List Char) : pySplitOn sep cs ≠ [] := by
  cases cs with
  | nil => simp [pySplitOn]
  | cons c rest =>
    simp only [pySplitOn]
    rcases h : pySplitOn sep rest with _ | ⟨h', t'⟩ <;> simp
    split <;> simp

theorem mem_of_mem_pySplitOn {sep : Char} {cs piece : List Char}
    (hp : piece ∈ pySplitOn sep cs) : ∀ c ∈ piece, c ∈ cs := by
  induction cs generalizing piece with
  | nil =>
    simp [pySplitOn] at hp
    simp [hp]
  | cons c rest ih =>
    simp only [pySplitOn] at hp
    rcases h : pySplitOn sep rest with _ | ⟨h', t'⟩
    · exact absurd h (pySplitOn_ne_nil sep rest)
    · rw [h] at hp
      by_cases hc : c = sep
      · simp [hc] at hp
        rcases hp with hp | hp | hp
        · simp [hp]
        · intro a ha
          exact List.mem_cons_of_mem _ (ih (by rw [h]; exact List.mem_cons_self _ _) a (hp ▸ ha))
        · intro a ha
          exact List.mem_cons_of_mem _ (ih (by rw [h]; exact List.mem_cons_of_mem _ hp) a ha)
      · simp [hc] at hp
        rcases hp with hp | hp
        · intro a ha
          rw [hp] at ha
          rcases List.mem_cons.mp ha with ha | ha
          · exact List.mem_cons.mpr (Or.inl ha)
          · exact List.mem_cons_of_mem _ (ih (by rw [h]; exact List.mem_cons_self _ _) a ha)
        · intro a ha
          exact List.mem_cons_of_mem _ (ih (by rw [h]; exact List.mem_cons_of_mem _ hp) a ha)

theorem sep_not_mem_pySplitOn {sep : Char} {cs piece : List Char}
    (hp : piece ∈ pySplitOn sep cs) : sep ∉ piece := by
  induction cs generalizing piece with
  | nil =>
    simp [pySplitOn] at hp
    simp [hp]
  | cons c rest ih =>
    simp only [pySplitOn] at hp
    rcases h : pySplitOn sep rest with _ | ⟨h', t'⟩
    · exact absurd h (pySplitOn_ne_nil sep rest)
    · rw [h] at hp
      by_cases hc : c = sep
      · simp [hc] at hp
        rcases hp with hp | hp | hp
        · simp [hp]
        · exact ih (by rw [h]; exact List.mem_cons_self _ _) |>.imp (fun hx => hp ▸ hx) |> fun hx => hx
        · exact ih (by rw [h]; exact List.mem_cons_of_mem _ hp)
      · simp [hc] at hp
        rcases hp with hp | hp
        · intro ha
          rw [hp] at ha
          rcases List.mem_cons.mp ha with ha | ha
          · exact hc ha.symm
          · exact ih (by rw [h]; exact List.mem_cons_self _ _) ha
        · exact ih (by rw [h]; exact List.mem_cons_of_mem _ hp)

theorem pySplitOn_singleton {sep : Char} {cs piece : List Char}
    (h : pySplitOn sep cs = [piece]) : piece = cs := by
  induction cs generalizing piece with
  | nil => simp [pySplitOn] at h; simp [h]
  | cons c rest ih =>
    simp only [pySplitOn] at h
    rcases hr : pySplitOn sep rest with _ | ⟨h', t'⟩
    · exact absurd hr (pySplitOn_ne_nil sep rest)
    · rw [hr] at h
      by_cases hc : c = sep
      · simp [hc] at h
      · simp [hc] at h
        rcases h with ⟨h1, h2⟩
        have := ih (by rw [hr, h2])
        rw [← h1, this]

theorem pySplitOn_of_not_mem {sep : Char} {cs : List Char}
    (h : sep ∉ cs) : pySplitOn sep cs = [cs] := by
  induction cs with
  | nil => rfl
  | cons c rest ih =>
    simp only [pySplitOn]
    rw [ih (fun hx => h (List.mem_cons_of_mem _ hx))]
    have hc : ¬ c = sep := fun hx => h (hx ▸ List.mem_cons_self c rest)
    simp [hc]

theorem pySplitOn_append {sep : Char} {a b : List Char} (h : sep ∉ a) :
    pySplitOn sep (a ++ sep :: b) = a :: pySplitOn sep b := by
  induction a with
  | nil =>
    simp only [List.nil_append, pySplitOn]
    rcases hr : pySplitOn sep b with _ | ⟨h', t'⟩
    · exact absurd hr (pySplitOn_ne_nil sep b)
    · simp
  | cons c rest ih =>
    have hc : ¬ c = sep := fun hx => h (hx ▸ List.mem_cons_self c rest)
    simp only [List.cons_append, pySplitOn, List.append_eq]
    rw [ih (fun hx => h (List.mem_cons_of_mem _ hx))]
    simp [hc]

/-- On strings without quote or whitespace characters, the cleaning step of
`normalize_taxon_label` is the identity. -/
theorem clean_eq_self {cs : List Char}
    (h : ∀ c ∈ cs, isPyWs c = false ∧ isQuoteChar c = false) :
    pyStripIf isQuoteChar (pyStripIf isPyWs cs) = cs := by
  rw [pyStripIf_eq_self (fun c hc => (h c hc).1)]
  exact pyStripIf_eq_self (fun c hc => (h c hc).2)

/-- On labels free of quote and whitespace characters, `normalize_taxon_label`
is idempotent. -/
theorem normalize_idem_of_plain (x : String)
    (h : ∀ c ∈ x.toList, isPyWs c = false ∧ isQuoteChar c = false) :
    normalize_taxon_label (normalize_taxon_label x) = normalize_taxon_label x := by
  by_cases hx : x = ""
  · subst hx; rfl
  · have hclean : pyStripIf isQuoteChar (pyStripIf isPyWs x.toList) = x.toList :=
      clean_eq_self h
    rcases hs : pySplitOn '|' x.toList with _ | ⟨p0, t0⟩
    · exact absurd hs (pySplitOn_ne_nil _ _)
    rcases t0 with _ | ⟨p1, rest⟩
    · have hp : p0 = x.toList := pySplitOn_singleton hs
      have h1 : normalize_taxon_label x = x := by
        simp only [normalize_taxon_label, if_neg hx, hclean, hs, hp]
        rfl
      rw [h1]
      exact h1
    · have hp0 : p0 ∈ pySplitOn '|' x.toList := by
        rw [hs]; exact List.mem_cons_self _ _
      have hp1 : p1 ∈ pySplitOn '|' x.toList := by
        rw [hs]; exact List.mem_cons_of_mem _ (List.mem_cons_self _ _)
      have hnp0 : '|' ∉ p0 := sep_not_mem_pySplitOn hp0
      have hnp1 : '|' ∉ p1 := sep_not_mem_pySplitOn hp1
      have hsub0 := mem_of_mem_pySplitOn hp0
      have hsub1 := mem_of_mem_pySplitOn hp1
      have h1 : normalize_taxon_label x = (p0 ++ '|' :: p1).asString := by
        simp only [normalize_taxon_label, if_neg hx, hclean, hs]
      have hrchars : ∀ c ∈ p0 ++ '|' :: p1, isPyWs c = false ∧ isQuoteChar c = false := by
        intro c hc
        rcases List.mem_append.mp hc with hc | hc
        · exact h c (hsub0 c hc)
        · rcases List.mem_cons.mp hc with hc | hc
          · subst hc; exact ⟨by decide, by decide⟩
          · exact h c (hsub1 c hc)
      have hrne : (p0 ++ '|' :: p1).asString ≠ "" := by
        intro hrr
        have hl : ((p0 ++ '|' :: p1).asString).toList = ("" : String).toList := by rw [hrr]
        have : p0 ++ '|' :: p1 = ([] : List Char) := hl
        simp at this
      have h2 : normalize_taxon_label ((p0 ++ '|' :: p1).asString) =
          (p0 ++ '|' :: p1).asString := by
        simp only [normalize_taxon_label, if_neg hrne]
        have htl : ((p0 ++ '|' :: p1).asString).toList = p0 ++ '|' :: p1 := rfl
        rw [htl, clean_eq_self hrchars, pySplitOn_append hnp0, pySplitOn_of_not_mem hnp1]
      rw [h1]
      exact h2

/-- C5 (amended).  `normalize_taxon_label` is NOT idempotent on all inputs:
a second application can differ when stripping the outer quotes exposes
surrounding whitespace, or when a discarded third field leaves trailing
whitespace on the kept second field.  It IS idempotent on every label free
of quote and whitespace characters; labels of the form strain|date and
strain|date|date normalize to the same canonical key; and normalization is
total (it is a function, so every label produces exactly one key). -/
theorem C5_normalize_idempotent_amended :
    (∀ x : String, (∀ c ∈ x.toList, isPyWs c = false ∧ isQuoteChar c = false) →
      normalize_taxon_label (normalize_taxon_label x) = normalize_taxon_label x) ∧
    normalize_taxon_label "A/x/2021|2021-05-01|2021-05-01" =
      normalize_taxon_label "A/x/2021|2021-05-01" :=
  ⟨normalize_idem_of_plain, by decide⟩

/-- C5 counterexample: on the label "a|b |c" (second field carries a trailing
space, third field discarded) the first application returns "a|b " and the
second application returns "a|b", so normalize(normalize(x)) differs from
normalize(x). -/
theorem C5_normalize_not_idempotent_cex :
    normalize_taxon_label (normalize_taxon_label "a|b |c") ≠
      normalize_taxon_label "a|b |c" ∧
    normalize_taxon_label "a|b |c" = "a|b " ∧
    normalize_taxon_label (normalize_taxon_label "a|b |c") = "a|b" := by
  refine ⟨by decide, by decide, by decide⟩

/-- Witness for the amended C5 theorem at the concrete label "a|b|c". -/
theorem C5_normalize_idem_witness :
    normalize_taxon_label (normalize_taxon_label "a|b|c") = normalize_taxon_label "a|b|c" :=
  C5_normalize_idempotent_amended.1 "a|b|c" (by decide)

/-! ### Trees (dendropy `Tree` values reachable from newick parsing) -/

/-- A parsed tree node: a leaf carries its taxon label, an internal node its
optional `node.label` and its children (internal taxa are suppressed on
parsing, so internal nodes carry no taxon). -/
inductive PTree where
  | leaf (taxon : String)
  | internal (label : Option String) (children : List PTree)

def PTree.isInternal : PTree → Bool
  | .leaf _ => false
  | .internal _ _ => true

mutual

/-- The taxon labels of `node.leaf_nodes()`, in left-to-right order. -/
def leafList : PTree → List String
  | .leaf a => [a]
  | .internal _ cs => leafListL cs

def leafListL : List PTree → List String
  | [] => []
  | c :: rest => leafList c ++ leafListL rest

end

mutual

/-- `tree.preorder_node_iter()`: every node, parents before children. -/
def preorderNodes : PTree → List PTree
  | .leaf a => [.leaf a]
  | .internal l cs => .internal l cs :: preorderNodesL cs

def preorderNodesL : List PTree → List PTree
  | [] => []
  | c :: rest => preorderNodes c ++ preorderNodesL rest

end

/-- `node.label or (node.taxon and node.taxon.label)` with Python falsiness:
an empty label behaves like an absent one. -/
def nodeLabel : PTree → Option String
  | .leaf a => if a = "" then none else some a
  | .internal l _ =>
    match l with
    | some s => if s = "" then none else some s
    | none => none

/-- `frozenset(leaf.taxon.label for leaf in node.leaf_nodes() if leaf.taxon
and leaf.taxon.label)`: the node's leaf-set, leaves with falsy labels
excluded. -/
def leafSet (t : PTree) : Finset String :=
  ((leafList t).filter (fun a => a ≠ "")).toFinset

/-- Python dict lookup: the most recent binding of the key wins (later plain
assignments overwrite earlier ones). -/
def pyDictGet {α β : Type} [DecidableEq α] (k : α) (d : List (α × β)) : Option β :=
  (d.reverse.find? (fun e => e.1 = k)).map (fun e => e.2)

/-- Python dict assignment `d[k] = v`: replace the binding in place if the
key exists, otherwise append. -/
def pyDictSet {α β : Type} [DecidableEq α] (k : α) (v : β) : List (α × β) → List (α × β)
  | [] => [(k, v)]
  | e :: rest => if e.1 = k then (k, v) :: rest else e :: pyDictSet k v rest

mutual

/-- `target_tree.find_node_with_taxon_label(x)` followed by the parent chain:
the ancestors of the first (preorder) leaf labelled `x`, deepest first
(immediate parent first, root last), the leaf itself excluded.  `none` when
no leaf carries `x`. -/
def pathToLeaf : PTree → String → Option (List PTree)
  | .leaf a, x => if a = x then some [] else none
  | .internal l cs, x =>
    match pathChildren cs x with
    | some p => some (p ++ [.internal l cs])
    | none => none

def pathChildren : List PTree → String → Option (List PTree)
  | [], _ => none
  | c :: rest, x =>
    match pathToLeaf c x with
    | some p => some p
    | none => pathChildren rest x

end

/-- mapper.py lines 177-192: the upward loop.  At each ancestor test
`source_leaf_set.issubset(current_leaves)`; on the first hit return
`current_label` (which is `None` for an unlabeled node). -/
def walkUp (S : Finset String) : List PTree → Option String
  | [] => none
  | n :: rest => if S ⊆ leafSet n then nodeLabel n else walkUp S rest

/-- mapper.py lines 149-192, `map_node_with_ancestral_walk`.  `chosen`
models `random.choice(list(source_leaf_set))` (the source only guarantees
membership in the set). -/
def map_node_with_ancestral_walk (source_leaf_set : Finset String)
    (target_tree : PTree) (target_leaf_map_inv : List (Finset String × String))
    (chosen : String) : Option String :=
  match pyDictGet source_leaf_set target_leaf_map_inv with
  | some l => some l
  | none =>
    if source_leaf_set = ∅ then none
    else
      match pathToLeaf target_tree chosen with
      | none => none
      | some p => walkUp source_leaf_set p

/-- mapper.py lines 132-147, `build_target_leaf_map`: one preorder pass
filling the forward map (label to leaf-set) and the inverse map (leaf-set to
label); nodes with falsy labels are skipped, later nodes with an equal
leaf-set overwrite earlier inverse entries (dict assignment). -/
def build_target_leaf_map (target_tree : PTree) :
    List (String × Finset String) × List (Finset String × String) :=
  ((preorderNodes target_tree).filterMap
      (fun n => (nodeLabel n).map (fun l => (l, leafSet n))),
   (preorderNodes target_tree).filterMap
      (fun n => (nodeLabel n).map (fun l => (leafSet n, l))))

/-- Structural induction for `PTree` with a membership hypothesis for the
children of an internal node. -/
theorem PTree.indOn (P : PTree → Prop) (hl : ∀ a, P (.leaf a))
    (hi : ∀ l cs, (∀ c ∈ cs, P c) → P (.internal l cs)) : ∀ t, P t
  | .leaf a => hl a
  | .internal l cs => hi l cs (fun c hc => PTree.indOn P hl hi c)
decreasing_by
  have := List.sizeOf_lt_of_mem hc
  simp_wf
  omega

/-! #### Tree traversal lemmas -/

theorem leafListL_eq (cs : List PTree) : leafListL cs = cs.flatMap leafList := by
  induction cs with
  | nil => rfl
  | cons c rest ih => simp [leafListL, ih]

theorem preorderNodesL_eq (cs : List PTree) :
    preorderNodesL cs = cs.flatMap preorderNodes := by
  induction cs with
  | nil => rfl
  | cons c rest ih => simp [preorderNodesL, ih]

theorem mem_leafSet {a : String} {t : PTree} :
    a ∈ leafSet t ↔ a ∈ leafList t ∧ a ≠ "" := by
  simp [leafSet, List.mem_filter]

theorem leafList_child_subset {c : PTree} {cs : List PTree} (hc : c ∈ cs) :
    ∀ a ∈ leafList c, a ∈ leafListL cs := by
  induction cs with
  | nil => cases hc
  | cons d rest ih =>
    intro a ha
    rcases List.mem_cons.mp hc with h | h
    · subst h
      exact List.mem_append.mpr (Or.inl ha)
    · exact List.mem_append.mpr (Or.inr (ih h a ha))

theorem mem_preorderNodesL {c : PTree} {cs : List PTree} {n : PTree}
    (hc : c ∈ cs) (hn : n ∈ preorderNodes c) : n ∈ preorderNodesL cs := by
  induction cs with
  | nil => cases hc
  | cons d rest ih =>
    rcases List.mem_cons.mp hc with h | h
    · subst h
      exact List.mem_append.mpr (Or.inl hn)
    · exact List.mem_append.mpr (Or.inr (ih h))

theorem self_mem_preorderNodes (t : PTree) : t ∈ preorderNodes t := by
  cases t <;> simp [preorderNodes]

theorem pathChildren_some {cs : List PTree} {x : String} {p : List PTree}
    (h : pathChildren cs x = some p) : ∃ c ∈ cs, pathToLeaf c x = some p := by
  induction cs with
  | nil => simp [pathChildren] at h
  | cons c rest ih =>
    simp only [pathChildren] at h
    rcases hc : pathToLeaf c x with _ | q
    · rw [hc] at h
      obtain ⟨c', hc', hp⟩ := ih h
      exact ⟨c', List.mem_cons_of_mem _ hc', hp⟩
    · rw [hc] at h
      cases h
      exact ⟨c, List.mem_cons_self _ _, hc⟩

theorem pathToLeaf_isSome_iff : ∀ (t : PTree) (x : String),
    (pathToLeaf t x).isSome ↔ x ∈ leafList t := by
  intro t
  induction t using PTree.indOn with
  | hl a =>
    intro x
    by_cases h : a = x <;> simp [pathToLeaf, leafList, h]
    exact fun hx => h hx.symm
  | hi l cs ihc =>
    intro x
    show (pathToLeaf (.internal l cs) x).isSome ↔ x ∈ leafList (.internal l cs)
    have hsplit : (pathChildren cs x).isSome ↔ x ∈ leafListL cs := by
      induction cs with
      | nil => simp [pathChildren, leafListL]
      | cons c rest ihr =>
        simp only [pathChildren, leafListL]
        rcases hc : pathToLeaf c x with _ | q
        · have hnc : x ∉ leafList c := by
            intro hx
            have := (ihc c (List.mem_cons_self _ _) x).mpr hx
            rw [hc] at this
            cases this
          have := ihr (fun c' hc' => ihc c' (List.mem_cons_of_mem _ hc'))
          simp [this, hnc]
        · have hmc : x ∈ leafList c := by
            have := (ihc c (List.mem_cons_self _ _) x).mp (by rw [hc]; rfl)
            exact this
          simp [hmc]
    simp only [pathToLeaf, leafList]
    rcases hp : pathChildren cs x with _ | q
    · rw [hp] at hsplit
      simpa using hsplit
    · rw [hp] at hsplit
      simpa using hsplit

theorem pathToLeaf_eq_none {t : PTree} {x : String} (h : x ∉ leafList t) :
    pathToLeaf t x = none := by
  rcases hp : pathToLeaf t x with _ | p
  · rfl
  · exact absurd ((pathToLeaf_isSome_iff t x).mp (by rw [hp]; rfl)) h

/-- The facts the walk relies on: every node on the path to the leaf `x`
contains `x` among its leaves, is internal, has its leaves among the whole
tree's leaves, and is a node of the tree. -/
theorem pathToLeaf_facts : ∀ (t : PTree) (x : String) (p : List PTree),
    pathToLeaf t x = some p → ∀ n ∈ p,
      x ∈ leafList n ∧ n.isInternal = true ∧
      (∀ a ∈ leafList n, a ∈ leafList t) ∧ n ∈ preorderNodes t := by
  intro t
  induction t using PTree.indOn with
  | hl a =>
    intro x p hp n hn
    simp only [pathToLeaf] at hp
    by_cases h : a = x
    · rw [if_pos h] at hp
      cases hp
      cases hn
    · rw [if_neg h] at hp
      cases hp
  | hi l cs ihc =>
    intro x p hp n hn
    simp only [pathToLeaf] at hp
    rcases hc : pathChildren cs x with _ | p₀
    · rw [hc] at hp
      cases hp
    · rw [hc] at hp
      cases hp
      obtain ⟨c, hcm, hcp⟩ := pathChildren_some hc
      have hxc : x ∈ leafList c := by
        have := (pathToLeaf_isSome_iff c x).mp (by rw [hcp]; rfl)
        exact this
      rcases List.mem_append.mp hn with hn | hn
      · obtain ⟨h1, h2, h3, h4⟩ := ihc c hcm x p₀ hcp n hn
        refine ⟨h1, h2, ?_, ?_⟩
        · intro a ha
          show a ∈ leafList (.internal l cs)
          exact leafList_child_subset hcm a (h3 a ha)
        · show n ∈ preorderNodes (.internal l cs)
          simp only [preorderNodes]
          exact List.mem_cons_of_mem _ (mem_preorderNodesL hcm h4)
      · rcases List.mem_singleton.mp hn with rfl
        refine ⟨?_, rfl, fun a ha => ha, self_mem_preorderNodes _⟩
        show x ∈ leafList (.internal l cs)
        exact leafList_child_subset hcm x hxc

/-! #### Walk lemmas -/

theorem walkUp_eq_none {S : Finset String} {p : List PTree}
    (h : ∀ n ∈ p, ¬ S ⊆ leafSet n) : walkUp S p = none := by
  induction p with
  | nil => rfl
  | cons n rest ih =>
    simp only [walkUp, if_neg (h n (List.mem_cons_self _ _))]
    exact ih (fun m hm => h m (List.mem_cons_of_mem _ hm))

theorem walkUp_spec {S : Finset String} {p : List PTree} {l : String}
    (h : walkUp S p = some l) :
    ∃ p₁ n p₂, p = p₁ ++ n :: p₂ ∧ (∀ m ∈ p₁, ¬ S ⊆ leafSet m) ∧
      S ⊆ leafSet n ∧ nodeLabel n = some l := by
  induction p with
  | nil => cases h
  | cons n rest ih =>
    by_cases hn : S ⊆ leafSet n
    · rw [walkUp, if_pos hn] at h
      exact ⟨[], n, rest, rfl, by simp, hn, h⟩
    · rw [walkUp, if_neg hn] at h
      obtain ⟨p₁, m, p₂, hrest, hpre, hsub, hlab⟩ := ih h
      refine ⟨n :: p₁, m, p₂, by rw [hrest]; rfl, ?_, hsub, hlab⟩
      intro m' hm'
      rcases List.mem_cons.mp hm' with h' | h'
      · exact h' ▸ hn
      · exact hpre m' h'

theorem walkUp_eq_find (S : Finset String) (p : List PTree) :
    walkUp S p = (p.find? (fun n => S ⊆ leafSet n)).bind nodeLabel := by
  induction p with
  | nil => rfl
  | cons n rest ih =>
    by_cases hn : S ⊆ leafSet n
    · rw [walkUp, if_pos hn, List.find?_cons_of_pos _ (by simpa using hn)]
      rfl
    · rw [walkUp, if_neg hn, List.find?_cons_of_neg _ (by simpa using hn)]
      exact ih

/-! #### Leaf-choice invariance of the ancestral walk (claim C6) -/

theorem pathChildren_find_inv (S : Finset String) (x y : String)
    (hx : x ∈ S) (hy : y ∈ S) :
    ∀ (cs : List PTree), (leafListL cs).Nodup →
      (∀ c ∈ cs, (leafList c).Nodup → ∀ px py, pathToLeaf c x = some px →
        pathToLeaf c y = some py →
        px.find? (fun n => S ⊆ leafSet n) = py.find? (fun n => S ⊆ leafSet n)) →
      ∀ px₀ py₀, pathChildren cs x = some px₀ → pathChildren cs y = some py₀ →
        px₀.find? (fun n => S ⊆ leafSet n) = py₀.find? (fun n => S ⊆ leafSet n) := by
  intro cs
  induction cs with
  | nil =>
    intro _ _ px₀ py₀ hpx
    simp [pathChildren] at hpx
  | cons c rest ih =>
    intro hnd hmem px₀ py₀ hpx hpy
    have hnd' : (leafList c ++ leafListL rest).Nodup := by
      have : leafListL (c :: rest) = leafList c ++ leafListL rest := rfl
      rw [← this]
      exact hnd
    obtain ⟨hndc, hndrest, hdisj⟩ := List.nodup_append.mp hnd'
    simp only [pathChildren] at hpx hpy
    rcases hcx : pathToLeaf c x with _ | p <;> rcases hcy : pathToLeaf c y with _ | q
    · rw [hcx] at hpx
      rw [hcy] at hpy
      exact ih hndrest (fun c' hc' => hmem c' (List.mem_cons_of_mem _ hc')) px₀ py₀ hpx hpy
    · -- x not in c, y in c
      rw [hcx] at hpx
      rw [hcy] at hpy
      cases hpy
      have hxc : x ∉ leafList c := by
        intro hmemx
        have := (pathToLeaf_isSome_iff c x).mpr hmemx
        rw [hcx] at this
        cases this
      have hyc : y ∈ leafList c := (pathToLeaf_isSome_iff c y).mp (by rw [hcy]; rfl)
      have h1 : px₀.find? (fun n => S ⊆ leafSet n) = none := by
        rw [List.find?_eq_none]
        intro n hn hsubn
        obtain ⟨c', hc', hcp'⟩ := pathChildren_some hpx
        have hfactsx := pathToLeaf_facts c' x px₀ hcp' n hn
        have hsub : S ⊆ leafSet n := by simpa using hsubn
        have hyn : y ∈ leafList n := (mem_leafSet.mp (hsub hy)).1
        have hyc' : y ∈ leafList c' := hfactsx.2.2.1 y hyn
        have : y ∈ leafListL rest := leafList_child_subset hc' y hyc'
        exact (List.disjoint_right.mp hdisj this) hyc
      have h2 : py₀.find? (fun n => S ⊆ leafSet n) = none := by
        rw [List.find?_eq_none]
        intro n hn hsubn
        have hfactsy := pathToLeaf_facts c y py₀ hcy n hn
        have hsub : S ⊆ leafSet n := by simpa using hsubn
        have hxn : x ∈ leafList n := (mem_leafSet.mp (hsub hx)).1
        exact hxc (hfactsy.2.2.1 x hxn)
      rw [h1, h2]
    · -- x in c, y not in c
      rw [hcx] at hpx
      rw [hcy] at hpy
      cases hpx
      have hyc : y ∉ leafList c := by
        intro hmemy
        have := (pathToLeaf_isSome_iff c y).mpr hmemy
        rw [hcy] at this
        cases this
      have hxc : x ∈ leafList c := (pathToLeaf_isSome_iff c x).mp (by rw [hcx]; rfl)
      have h1 : px₀.find? (fun n => S ⊆ leafSet n) = none := by
        rw [List.find?_eq_none]
        intro n hn hsubn
        have hfactsx := pathToLeaf_facts c x px₀ hcx n hn
        have hsub : S ⊆ leafSet n := by simpa using hsubn
        have hyn : y ∈ leafList n := (mem_leafSet.mp (hsub hy)).1
        exact hyc (hfactsx.2.2.1 y hyn)
      have h2 : py₀.find? (fun n => S ⊆ leafSet n) = none := by
        rw [List.find?_eq_none]
        intro n hn hsubn
        obtain ⟨c', hc', hcp'⟩ := pathChildren_some hpy
        have hfactsy := pathToLeaf_facts c' y py₀ hcp' n hn
        have hsub : S ⊆ leafSet n := by simpa using hsubn
        have hxn : x ∈ leafList n := (mem_leafSet.mp (hsub hx)).1
        have hxc' : x ∈ leafList c' := hfactsy.2.2.1 x hxn
        have : x ∈ leafListL rest := leafList_child_subset hc' x hxc'
        exact (List.disjoint_right.mp hdisj this) hxc
      rw [h1, h2]
    · -- both in c
      rw [hcx] at hpx
      rw [hcy] at hpy
      cases hpx
      cases hpy
      exact hmem c (List.mem_cons_self _ _) hndc px₀ py₀ hcx hcy

theorem walk_find_choice_inv : ∀ (t : PTree), (leafList t).Nodup →
    ∀ (S : Finset String) (x y : String), x ∈ S → y ∈ S →
    ∀ px py, pathToLeaf t x = some px → pathToLeaf t y = some py →
    px.find? (fun n => S ⊆ leafSet n) = py.find? (fun n => S ⊆ leafSet n) := by
  intro t
  induction t using PTree.indOn with
  | hl a =>
    intro _ S x y _ _ px py hpx hpy
    simp only [pathToLeaf] at hpx hpy
    by_cases h1 : a = x
    · rw [if_pos h1] at hpx
      cases hpx
      by_cases h2 : a = y
      · rw [if_pos h2] at hpy
        cases hpy
        rfl
      · rw [if_neg h2] at hpy
        cases hpy
    · rw [if_neg h1] at hpx
      cases hpx
  | hi l cs ihc =>
    intro hnd S x y hx hy px py hpx hpy
    simp only [pathToLeaf] at hpx hpy
    rcases hcx : pathChildren cs x with _ | px₀
    · rw [hcx] at hpx
      cases hpx
    rcases hcy : pathChildren cs y with _ | py₀
    · rw [hcy] at hpy
      cases hpy
    rw [hcx] at hpx
    rw [hcy] at hpy
    cases hpx
    cases hpy
    have hndl : (leafListL cs).Nodup := hnd
    have hinner := pathChildren_find_inv S x y hx hy cs hndl
      (fun c hc hndc px' py' h1 h2 => ihc c hc hndc S x y hx hy px' py' h1 h2)
      px₀ py₀ hcx hcy
    rw [List.find?_append, List.find?_append, hinner]

/-- C6.  Ancestral-walk resolution is leaf-choice-invariant: with a fixed
source leaf-set and fixed target tree (whose leaf taxa are distinct, as the
data model requires of taxon identities), resolving from any two member
leaves that exist in the target yields the same result.  This covers the
exact-match case trivially and the walk case by the invariance of the first
containing ancestor. -/
theorem C6_walk_leaf_choice_invariant (t : PTree) (S : Finset String)
    (inv : List (Finset String × String)) (x y : String)
    (hnd : (leafList t).Nodup) (hx : x ∈ S) (hy : y ∈ S)
    (hxt : x ∈ leafList t) (hyt : y ∈ leafList t) :
    map_node_with_ancestral_walk S t inv x = map_node_with_ancestral_walk S t inv y := by
  rcases h : pyDictGet S inv with _ | l
  · have hne : S ≠ ∅ := Finset.ne_empty_of_mem hx
    obtain ⟨px, hpx⟩ := Option.isSome_iff_exists.mp ((pathToLeaf_isSome_iff t x).mpr hxt)
    obtain ⟨py, hpy⟩ := Option.isSome_iff_exists.mp ((pathToLeaf_isSome_iff t y).mpr hyt)
    simp only [map_node_with_ancestral_walk, h, if_neg hne, hpx, hpy]
    rw [walkUp_eq_find, walkUp_eq_find,
      walk_find_choice_inv t hnd S x y hx hy px py hpx hpy]
  · simp only [map_node_with_ancestral_walk, h]

/-- A small concrete target tree: ((A,B)N0,C)R. -/
def tC6 : PTree :=
  .internal (some "R") [.internal (some "N0") [.leaf "A", .leaf "B"], .leaf "C"]

/-- Witness for C6: on ((A,B)N0,C)R with the leaf-set {A,B} and an empty
inverse map, walking from A and from B agree. -/
theorem C6_walk_leaf_choice_invariant_witness :
    map_node_with_ancestral_walk {"A", "B"} tC6 [] "A" =
      map_node_with_ancestral_walk {"A", "B"} tC6 [] "B" :=
  C6_walk_leaf_choice_invariant tC6 {"A", "B"} [] "A" "B"
    (by decide) (by decide) (by decide) (by decide) (by decide)

/-! #### Exact match, containment and parent-start properties -/

theorem pyDictGet_some_mem {α β : Type} [DecidableEq α] {k : α} {d : List (α × β)}
    {v : β} (h : pyDictGet k d = some v) : (k, v) ∈ d := by
  unfold pyDictGet at h
  rcases hf : d.reverse.find? (fun e => e.1 = k) with _ | e
  · rw [hf] at h
    cases h
  · rw [hf] at h
    cases h
    have hm := List.mem_of_find?_eq_some hf
    have hp : e.1 = k := by simpa using List.find?_some hf
    have : (k, e.2) = e := by
      rw [← hp]
    rw [this]
    exact List.mem_reverse.mp hm

/-- C7.  If a source leaf-set is a key of the target inverse map, resolution
returns the bound label immediately (no fallback), and that label is the
label of an actual node of the target tree whose leaf-set equals the query. -/
theorem C7_exact_match_returns_that_node (t : PTree) (S : Finset String)
    (l : String) (chosen : String)
    (h : pyDictGet S (build_target_leaf_map t).2 = some l) :
    map_node_with_ancestral_walk S t (build_target_leaf_map t).2 chosen = some l ∧
    ∃ n ∈ preorderNodes t, nodeLabel n = some l ∧ leafSet n = S := by
  constructor
  · simp only [map_node_with_ancestral_walk, h]
  · have hm := pyDictGet_some_mem h
    simp only [build_target_leaf_map] at hm
    rw [List.mem_filterMap] at hm
    obtain ⟨n, hn, he⟩ := hm
    rcases hl : nodeLabel n with _ | l'
    · rw [hl] at he
      cases he
    · rw [hl] at he
      simp at he
      exact ⟨n, hn, by rw [hl, he.2], he.1⟩

/-- Witness for C7 on ((A,B)N0,C)R: the leaf-set {A,B} is a key of the
inverse map bound to N0, and resolution returns N0, realized by the node
labelled N0. -/
theorem C7_exact_match_witness :
    map_node_with_ancestral_walk {"A", "B"} tC6 (build_target_leaf_map tC6).2 "A" =
        some "N0" ∧
    ∃ n ∈ preorderNodes tC6, nodeLabel n = some "N0" ∧ leafSet n = {"A", "B"} :=
  C7_exact_match_returns_that_node tC6 {"A", "B"} "N0" "A" (by decide)

/-- C8.  Whenever resolution succeeds through the ancestral walk (no exact
match), the returned label belongs to a node of the target tree on the
chosen leaf's ancestor path whose leaf-set contains the queried source
leaf-set, and it is the first (deepest) such ancestor: every strictly deeper
ancestor on the path fails the containment test. -/
theorem C8_walk_returns_first_containing_ancestor (t : PTree) (S : Finset String)
    (inv : List (Finset String × String)) (chosen : String) (l : String)
    (hni : pyDictGet S inv = none)
    (hres : map_node_with_ancestral_walk S t inv chosen = some l) :
    ∃ p, pathToLeaf t chosen = some p ∧
      ∃ p₁ n p₂, p = p₁ ++ n :: p₂ ∧
        n ∈ preorderNodes t ∧ S ⊆ leafSet n ∧ nodeLabel n = some l ∧
        ∀ m ∈ p₁, ¬ S ⊆ leafSet m := by
  simp only [map_node_with_ancestral_walk, hni] at hres
  by_cases hS : S = ∅
  · rw [if_pos hS] at hres
    cases hres
  · rw [if_neg hS] at hres
    rcases hp : pathToLeaf t chosen with _ | p
    · rw [hp] at hres
      cases hres
    · rw [hp] at hres
      obtain ⟨p₁, n, p₂, heq, hpre, hsub, hlab⟩ := walkUp_spec hres
      refine ⟨p, rfl, p₁, n, p₂, heq, ?_, hsub, hlab, hpre⟩
      have hnp : n ∈ p := by
        rw [heq]
        exact List.mem_append.mpr (Or.inr (List.mem_cons_self _ _))
      exact (pathToLeaf_facts t chosen p hp n hnp).2.2.2

/-- Witness for C8 on ((A,B)N0,C)R with an empty inverse map: the query {A}
resolves through the walk from A to the first containing ancestor N0. -/
theorem C8_walk_containment_witness :
    ∃ p, pathToLeaf tC6 "A" = some p ∧
      ∃ p₁ n p₂, p = p₁ ++ n :: p₂ ∧
        n ∈ preorderNodes tC6 ∧ ({"A"} : Finset String) ⊆ leafSet n ∧
        nodeLabel n = some "N0" ∧
        ∀ m ∈ p₁, ¬ ({"A"} : Finset String) ⊆ leafSet m :=
  C8_walk_returns_first_containing_ancestor tC6 {"A"} [] "A" "N0" rfl (by decide)

/-- C10.  The walk starts at the chosen leaf's parent: every node on the
walked path is internal (so the leaf itself is never returned), and a
singleton query {x} absent from the inverse map, with x present in the
target, resolves to the label of x's parent (the first path node). -/
theorem C10_walk_starts_at_parent (t : PTree) (x : String) (p : List PTree)
    (hx : x ≠ "") (hp : pathToLeaf t x = some p) :
    (∀ n ∈ p, n.isInternal = true ∧ x ∈ leafList n) ∧
    (∀ (inv : List (Finset String × String)) (parent : PTree) (rest : List PTree),
      pyDictGet {x} inv = none → p = parent :: rest →
      map_node_with_ancestral_walk {x} t inv x = nodeLabel parent) := by
  constructor
  · intro n hn
    have hf := pathToLeaf_facts t x p hp n hn
    exact ⟨hf.2.1, hf.1⟩
  · intro inv parent rest hni hpar
    have hxp : x ∈ leafList parent :=
      (pathToLeaf_facts t x p hp parent (by rw [hpar]; exact List.mem_cons_self _ _)).1
    have hsub : ({x} : Finset String) ⊆ leafSet parent := by
      intro a ha
      rcases Finset.mem_singleton.mp ha with rfl
      exact mem_leafSet.mpr ⟨hxp, hx⟩
    have hne : ({x} : Finset String) ≠ ∅ := by simp
    simp only [map_node_with_ancestral_walk, hni, if_neg hne, hp, hpar]
    simp only [walkUp, if_pos hsub]

/-- Witness for C10 on ((A,B)N0,C)R: the singleton {A} with an empty inverse
map resolves to the label of A's parent N0. -/
theorem C10_walk_starts_at_parent_witness :
    map_node_with_ancestral_walk {"A"} tC6 [] "A" =
      nodeLabel (.internal (some "N0") [.leaf "A", .leaf "B"]) :=
  (C10_walk_starts_at_parent tC6 "A"
      [.internal (some "N0") [.leaf "A", .leaf "B"], tC6] (by decide) rfl).2
    [] _ _ rfl rfl

/-! #### Leaf-set invariants (claim C9) -/

theorem leafSet_internal_eq (l : Option String) (cs : List PTree) :
    leafSet (.internal l cs) = cs.foldr (fun c acc => leafSet c ∪ acc) ∅ := by
  induction cs with
  | nil => rfl
  | cons c rest ih =>
    have hstep : leafSet (.internal l (c :: rest)) = leafSet c ∪ leafSet (.internal l rest) := by
      simp only [leafSet]
      have h1 : leafList (.internal l (c :: rest)) = leafList c ++ leafListL rest := rfl
      have h2 : leafList (.internal l rest) = leafListL rest := rfl
      rw [h1, h2, List.filter_append, List.toFinset_append]
    rw [hstep, ih, List.foldr_cons]

theorem preorderNodesL_mem {cs : List PTree} {n : PTree}
    (h : n ∈ preorderNodesL cs) : ∃ c ∈ cs, n ∈ preorderNodes c := by
  induction cs with
  | nil => cases h
  | cons c rest ih =>
    rcases List.mem_append.mp h with h | h
    · exact ⟨c, List.mem_cons_self _ _, h⟩
    · obtain ⟨c', hc', hn⟩ := ih h
      exact ⟨c', List.mem_cons_of_mem _ hc', hn⟩

theorem leaf_mem_leafList_of_mem_preorder : ∀ (t : PTree) (a : String),
    PTree.leaf a ∈ preorderNodes t → a ∈ leafList t := by
  intro t
  induction t using PTree.indOn with
  | hl b =>
    intro a ha
    simp only [preorderNodes] at ha
    rcases List.mem_singleton.mp ha with h
    injection h with h'
    simp [h', leafList]
  | hi l cs ihc =>
    intro a ha
    simp only [preorderNodes] at ha
    rcases List.mem_cons.mp ha with h | h
    · cases h
    · obtain ⟨c, hc, hn⟩ := preorderNodesL_mem h
      show a ∈ leafList (.internal l cs)
      exact leafList_child_subset hc a (ihc c hc a hn)

/-- The taxon of a leaf node, `none` for internal nodes. -/
def leafTaxon : PTree → Option String
  | .leaf a => some a
  | .internal _ _ => none

theorem preorder_filterMap_leafTaxon : ∀ (t : PTree),
    (preorderNodes t).filterMap leafTaxon = leafList t := by
  intro t
  induction t using PTree.indOn with
  | hl a => rfl
  | hi l cs ihc =>
    have hlist : (preorderNodesL cs).filterMap leafTaxon = leafListL cs := by
      induction cs with
      | nil => rfl
      | cons c rest ihr =>
        have h1 : preorderNodesL (c :: rest) = preorderNodes c ++ preorderNodesL rest := rfl
        have h2 : leafListL (c :: rest) = leafList c ++ leafListL rest := rfl
        rw [h1, h2, List.filterMap_append, ihc c (List.mem_cons_self _ _),
          ihr (fun c' hc' => ihc c' (List.mem_cons_of_mem _ hc'))]
    have h3 : preorderNodes (.internal l cs) = .internal l cs :: preorderNodesL cs := rfl
    have h4 : leafList (.internal l cs) = leafListL cs := rfl
    rw [h3, h4, List.filterMap_cons]
    simp only [leafTaxon]
    exact hlist

/-- C9.  For every node of an indexed tree (whose leaf taxa are all truthy,
i.e. non-empty), the leaf-set of an internal node is the union of its
children's leaf-sets, the leaf-set of a leaf is the singleton of its own
taxon, and the root's leaf-set equals the set of all leaf taxa collected
from the node iterator. -/
theorem C9_leafset_invariants (t : PTree) (h : "" ∉ leafList t) :
    (∀ n ∈ preorderNodes t,
      (∀ l cs, n = .internal l cs →
        leafSet n = cs.foldr (fun c acc => leafSet c ∪ acc) ∅) ∧
      (∀ a, n = .leaf a → leafSet n = {a})) ∧
    leafSet t = ((preorderNodes t).filterMap leafTaxon).toFinset := by
  constructor
  · intro n hn
    constructor
    · intro l cs he
      subst he
      exact leafSet_internal_eq l cs
    · intro a he
      subst he
      have ha : a ∈ leafList t := leaf_mem_leafList_of_mem_preorder t a hn
      have hne : ¬ a = "" := fun hq => h (hq ▸ ha)
      simp [leafSet, leafList, hne]
  · rw [preorder_filterMap_leafTaxon]
    unfold leafSet
    congr 1
    rw [List.filter_eq_self]
    intro a ha
    have hne : a ≠ "" := by
      intro hq
      exact h (hq ▸ ha)
    simpa using hne

/-- Witness for C9 on the concrete tree ((A,B)N0,C)R. -/
theorem C9_leafset_invariants_witness :
    (∀ n ∈ preorderNodes tC6,
      (∀ l cs, n = .internal l cs →
        leafSet n = cs.foldr (fun c acc => leafSet c ∪ acc) ∅) ∧
      (∀ a, n = .leaf a → leafSet n = {a})) ∧
    leafSet tC6 = ((preorderNodes tC6).filterMap leafTaxon).toFinset :=
  C9_leafset_invariants tC6 (by decide)

/-! #### Singleton queries and the fallback (claim C2) -/

theorem leafListL_mem {cs : List PTree} {x : String}
    (h : x ∈ leafListL cs) : ∃ c ∈ cs, x ∈ leafList c := by
  induction cs with
  | nil => cases h
  | cons c rest ih =>
    rcases List.mem_append.mp h with h | h
    · exact ⟨c, List.mem_cons_self _ _, h⟩
    · obtain ⟨c', hc', hx⟩ := ih h
      exact ⟨c', List.mem_cons_of_mem _ hc', hx⟩

theorem leaf_node_mem_preorder : ∀ (t : PTree) (x : String),
    x ∈ leafList t → PTree.leaf x ∈ preorderNodes t := by
  intro t
  induction t using PTree.indOn with
  | hl a =>
    intro x hx
    rcases List.mem_singleton.mp hx with rfl
    simp [preorderNodes]
  | hi l cs ihc =>
    intro x hx
    obtain ⟨c, hc, hxc⟩ := leafListL_mem hx
    show PTree.leaf x ∈ preorderNodes (.internal l cs)
    simp only [preorderNodes]
    exact List.mem_cons_of_mem _ (mem_preorderNodesL hc (ihc c hc x hxc))

theorem pyDictGet_isSome_of_mem {α β : Type} [DecidableEq α] {k : α} {v : β}
    {d : List (α × β)} (h : (k, v) ∈ d) : (pyDictGet k d).isSome := by
  unfold pyDictGet
  have hf : (d.reverse.find? (fun e => e.1 = k)).isSome :=
    List.find?_isSome.mpr ⟨(k, v), List.mem_reverse.mpr h, by simp⟩
  simpa using hf

/-- mapper.py lines 153-165 control flow: the ancestral-walk fallback
(line 164 onward, beginning with the `random.choice` draw) is reached
exactly when the exact-match lookup misses and the source leaf-set is
non-empty — there is no special case for singleton leaf-sets. -/
def reachesAncestralWalk (S : Finset String)
    (inv : List (Finset String × String)) : Bool :=
  (pyDictGet S inv).isNone && !(decide (S = ∅))

/-- C2 counterexample: the singleton leaf-set {Z} misses the inverse map of
((A,B)N0,C)R, yet the fallback IS entered (the guard protecting the walk
does not exclude singletons), contradicting the claim that containment
fallback is not attempted for single-leaf sets. -/
theorem C2_singleton_fallback_attempted_cex :
    pyDictGet {"Z"} (build_target_leaf_map tC6).2 = none ∧
    ({"Z"} : Finset String).card = 1 ∧
    reachesAncestralWalk {"Z"} (build_target_leaf_map tC6).2 = true := by
  refine ⟨by decide, by decide, by decide⟩

/-- C2 (amended).  A singleton source leaf-set {x} that misses the inverse
map built from the target tree DOES enter the ancestral-walk fallback, but
the walk necessarily fails there (such a miss means x is not a target leaf,
so the leaf lookup finds nothing), resolution returns none, and the
annotation therefore contributes nothing to the report.  (The accompanying
warning is printed only in debug mode.)  The chosen representative of a
singleton is necessarily x itself. -/
theorem C2_singleton_miss_drops (t : PTree) (x : String)
    (hmiss : pyDictGet {x} (build_target_leaf_map t).2 = none) :
    reachesAncestralWalk {x} (build_target_leaf_map t).2 = true ∧
    map_node_with_ancestral_walk {x} t (build_target_leaf_map t).2 x = none := by
  constructor
  · simp [reachesAncestralWalk, hmiss]
  · by_cases hx : x = ""
    · subst hx
      simp only [map_node_with_ancestral_walk, hmiss]
      rw [if_neg (by simp : ({""} : Finset String) ≠ ∅)]
      rcases hp : pathToLeaf t "" with _ | p
      · rfl
      · apply walkUp_eq_none
        intro n hn hsub
        have hm : ("" : String) ∈ leafSet n := hsub (Finset.mem_singleton_self "")
        exact (mem_leafSet.mp hm).2 rfl
    · have hxt : x ∉ leafList t := by
        intro hmem
        have hnode : PTree.leaf x ∈ preorderNodes t := leaf_node_mem_preorder t x hmem
        have hentry : (({x} : Finset String), x) ∈ (build_target_leaf_map t).2 := by
          simp only [build_target_leaf_map]
          rw [List.mem_filterMap]
          refine ⟨.leaf x, hnode, ?_⟩
          simp [nodeLabel, leafSet, leafList, hx]
        have := pyDictGet_isSome_of_mem hentry
        rw [hmiss] at this
        cases this
      simp only [map_node_with_ancestral_walk, hmiss]
      rw [if_neg (by simp : ({x} : Finset String) ≠ ∅), pathToLeaf_eq_none hxt]

/-- Witness for the amended C2 theorem: {Z} misses the inverse map of
((A,B)N0,C)R, the fallback is entered, and resolution returns none. -/
theorem C2_singleton_miss_drops_witness :
    reachesAncestralWalk {"Z"} (build_target_leaf_map tC6).2 = true ∧
    map_node_with_ancestral_walk {"Z"} tC6 (build_target_leaf_map tC6).2 "Z" = none :=
  C2_singleton_miss_drops tC6 "Z" (by decide)

/-! ### Newick ingestion (mapper.py lines 43-115) -/

def isStructuralChar (c : Char) : Bool :=
  c = '(' || c = ')' || c = ',' || c = ';'

/-- Read a (possibly empty) label: the maximal run of non-structural
characters. -/
def takeLabel (cs : List Char) : List Char × List Char :=
  (cs.takeWhile (fun c => !isStructuralChar c), cs.dropWhile (fun c => !isStructuralChar c))

mutual

/-- Recursive-descent newick subtree: either a parenthesized child list
followed by an optional internal label, or a non-empty leaf label.  Models
`dendropy.Tree.get(..., schema="newick")` on the branch-length-free newick
fragments this repository handles; failure is `none`. -/
def parseSubtree : Nat → List Char → Option (PTree × List Char)
  | 0, _ => none
  | Nat.succ fuel, cs =>
    match cs with
    | '(' :: rest =>
      match parseChildList fuel rest with
      | none => none
      | some (children, rest₂) =>
        match rest₂ with
        | ')' :: rest₃ =>
          let lbl := takeLabel rest₃
          some (.internal (if lbl.1 = [] then none else some lbl.1.asString) children, lbl.2)
        | _ => none
    | _ =>
      let lbl := takeLabel cs
      if lbl.1 = [] then none else some (.leaf lbl.1.asString, lbl.2)

def parseChildList : Nat → List Char → Option (List PTree × List Char)
  | 0, _ => none
  | Nat.succ fuel, cs =>
    match parseSubtree fuel cs with
    | none => none
    | some (t, rest) =>
      match rest with
      | ',' :: rest₂ =>
        match parseChildList fuel rest₂ with
        | none => none
        | some (ts, rest₃) => some (t :: ts, rest₃)
      | _ => some ([t], rest)

end

/-- Parse a whole newick tree: one subtree, optionally a closing semicolon,
nothing else; `none` on malformed text (the model of a dendropy parse
exception). -/
def parseNewickChars (cs : List Char) : Option PTree :=
  match parseSubtree (2 * cs.length + 2) cs with
  | none => none
  | some (t, rest) =>
    match rest with
    | [] => some t
    | [';'] => some t
    | _ => none

mutual

/-- `normalize_tree_taxa` (mapper.py lines 35-41): normalize every leaf
taxon in place.  (For a falsy label the loop skips the assignment, but
`normalize_taxon_label "" = ""` so the result is identical.) -/
def normalizeTree : PTree → PTree
  | .leaf a => .leaf (normalize_taxon_label a)
  | .internal l cs => .internal l (normalizeTreeL cs)

def normalizeTreeL : List PTree → List PTree
  | [] => []
  | c :: rest => normalizeTree c :: normalizeTreeL rest

end

/-- mapper.py lines 63-68: `node.label` if truthy, else for a leaf the
re-normalized taxon label if the taxon label is truthy. -/
def sourceNodeLabel : PTree → Option String
  | .internal l _ =>
    match l with
    | some s => if s = "" then none else some s
    | none => none
  | .leaf a =>
    if a = "" then none
    else if normalize_taxon_label a = "" then none
    else some (normalize_taxon_label a)

/-- mapper.py lines 71-73 and 107-109: `frozenset(normalize_taxon_label(
leaf.taxon.label) for leaf in node.leaf_nodes() if leaf.taxon and
leaf.taxon.label)`. -/
def sourceLeafSet (n : PTree) : Finset String :=
  (((leafList n).filter (fun a => a ≠ "")).map normalize_taxon_label).toFinset

/-- mapper.py lines 63-74: the entries written to `source_leaf_map` by the
full-tree pass, in preorder (the association list models the dict in
insertion order). -/
def sourceEntries (t : PTree) : List (String × Finset String) :=
  (preorderNodes t).filterMap
    (fun n => (sourceNodeLabel n).map (fun l => (l, sourceLeafSet n)))

/-- The regex `\)(TS_NODE_\d+)` applied right after a `)`: the literal
prefix TS_NODE_ followed by at least one digit. -/
def matchTSLabel (cs : List Char) : Option String :=
  if cs.take 8 = "TS_NODE_".toList then
    let ds := (cs.drop 8).takeWhile Char.isDigit
    if ds = [] then none else some ("TS_NODE_" ++ ds.asString)
  else none

/-- `re.finditer(r"\)(TS_NODE_\d+)", tree_string)`: all matches with the
index of the `)` (the match start).  A match never contains another `)`,
so position-by-position scanning coincides with finditer. -/
def tsMatches : List Char → Nat → List (Nat × String)
  | [], _ => []
  | c :: rest, i =>
    (if c = ')' then
      match matchTSLabel rest with
      | some lbl => [(i, lbl)]
      | none => []
    else []) ++ tsMatches rest (i + 1)

/-- mapper.py lines 89-100: walk backwards from `clade_end_pos - 1` keeping
a parenthesis balance that starts at 1; return the index where the balance
first reaches 0, `none` if the loop exhausts (clade_start_pos == -1).  The
first argument is the reversed prefix of的 the tree string before the `)`. -/
def scanBack : List Char → Int → Nat → Option Nat
  | [], _, _ => none
  | c :: rest, bal, idx =>
    let b : Int := if c = ')' then bal + 1 else if c = '(' then bal - 1 else bal
    if b = 0 then some idx else scanBack rest b (idx - 1)

/-- mapper.py lines 82-112: one regex-backup step.  Skip labels already in
the map; find the clade start by parenthesis balancing; parse the clade
with a `;` appended; on any failure skip, otherwise assign the clade's
normalized leaf-set to the label (a fresh key, hence an append). -/
def regexFallbackStep (cs : List Char) (m : List (String × Finset String))
    (pr : Nat × String) : List (String × Finset String) :=
  if (pyDictGet pr.2 m).isSome then m
  else
    match scanBack ((cs.take pr.1).reverse) 1 (pr.1 - 1) with
    | none => m
    | some s₀ =>
      let clade := (cs.drop s₀).take (pr.1 - s₀ + 1)
      match parseNewickChars (clade ++ [';']) with
      | none => m
      | some ct => m ++ [(pr.2, sourceLeafSet (normalizeTree ct))]

/-- mapper.py lines 79-112: the whole regex-backup pass. -/
def regexFallback (cs : List Char) (m : List (String × Finset String)) :
    List (String × Finset String) :=
  (tsMatches cs 0).foldl (regexFallbackStep cs) m

/-- mapper.py lines 43-115, `build_source_leaf_map_from_tree_string`
(the file read is modelled by passing the file's text): strip the text,
try the full parse — a parse failure is caught, logged as a warning and
leaves the map empty — then always run the regex backup, and return the
map.  The function has no failure channel. -/
def build_source_leaf_map_from_tree_string (s : String) :
    List (String × Finset String) :=
  let cs := pyStripIf isPyWs s.toList
  let base :=
    match parseNewickChars cs with
    | some t => sourceEntries (normalizeTree t)
    | none => []
  regexFallback cs base

/-- C4 counterexample: the text "((A,B)TS_NODE_0;" is not parseable as a
tree (unbalanced parenthesis), yet source ingestion does not fail — there
is no MalformedTreeError anywhere — and returns a PARTIAL map recovered by
the regex backup, containing the one clade TS_NODE_0. -/
theorem C4_malformed_input_partial_success_cex :
    parseNewickChars (pyStripIf isPyWs "((A,B)TS_NODE_0;".toList) = none ∧
    build_source_leaf_map_from_tree_string "((A,B)TS_NODE_0;" =
      [("TS_NODE_0", {"A", "B"})] := by
  refine ⟨rfl, by decide⟩

/-- C4 (amended).  When the source tree text cannot be parsed as a
well-formed tree, ingestion does NOT fail with a MalformedTreeError: the
exception is caught (a warning is printed), and the function returns the
map produced by the regex backup alone — possibly partial, possibly empty,
never an error. -/
theorem C4_parse_failure_nonfatal (s : String)
    (h : parseNewickChars (pyStripIf isPyWs s.toList) = none) :
    build_source_leaf_map_from_tree_string s =
      regexFallback (pyStripIf isPyWs s.toList) [] := by
  show regexFallback (pyStripIf isPyWs s.toList)
      (match parseNewickChars (pyStripIf isPyWs s.toList) with
        | some t => sourceEntries (normalizeTree t)
        | none => []) =
    regexFallback (pyStripIf isPyWs s.toList) []
  rw [h]

/-- Witness for the amended C4 theorem on the unparsable text "(((": the
full parse fails and the function returns the (here empty) regex-backup
map. -/
theorem C4_parse_failure_nonfatal_witness :
    build_source_leaf_map_from_tree_string "(((" =
      regexFallback (pyStripIf isPyWs "(((".toList) [] :=
  C4_parse_failure_nonfatal "(((" rfl

/-! ### The aggregation loop and run tail (mapper.py `main`, lines 225-319) -/

/-- One record of `summary_reassortment.json`: `data.get("reassorted")`,
`data.get("reassorted confidence", {}).get("True", 0)` (the defaults are
collapsed into the field), and `data["segments"]`.  Confidence floats are
modelled by `ℚ`. -/
structure SEntry where
  reassorted : String
  confTrue : ℚ
  segments : String
deriving DecidableEq

/-- mapper.py line 227. -/
def CONFIDENCE_THRESHOLD : ℚ := mkRat 95 100

/-- mapper.py lines 271-299: the aggregation loop.  Returns the
`mapped_summary_data` dict (association list in insertion order, assignment
to an existing target label REPLACES its value), `high_confidence_count`
and `mapped_count`.  `choice` models the `random.choice` draw inside the
resolver. -/
def processSummary (summary : List (String × SEntry))
    (source_leaf_map : List (String × Finset String)) (t : PTree)
    (inv : List (Finset String × String)) (choice : Finset String → String) :
    List (String × SEntry) × Nat × Nat :=
  summary.foldl
    (fun acc pr =>
      if pr.2.reassorted = "True" ∧ pr.2.confTrue ≥ CONFIDENCE_THRESHOLD then
        match pyDictGet pr.1 source_leaf_map with
        | some S =>
          match map_node_with_ancestral_walk S t inv (choice S) with
          | some tl => (pyDictSet tl pr.2 acc.1, acc.2.1 + 1, acc.2.2 + 1)
          | none => (acc.1, acc.2.1 + 1, acc.2.2)
        | none => (acc.1, acc.2.1 + 1, acc.2.2)
      else acc)
    ([], 0, 0)

/-- The augur node-data artifact (mapper.py lines 194-223): per-node display
attributes (Reassorted flag, confidence, reassortment_events) and per-node
branch label text.  The `.3f` float formatting and the constant
`branch_attrs` header are omitted from the model; the confidence is kept as
its `ℚ` value. -/
structure AugurData where
  nodes : List (String × (Bool × ℚ × String))
  branches : List (String × String)
deriving DecidableEq

/-- Python `", ".join(...)`. -/
def pyJoin (sep : String) : List String → String
  | [] => ""
  | [s] => s
  | s :: rest => s ++ sep ++ pyJoin sep rest

/-- mapper.py lines 194-223, `create_augur_node_data`. -/
def create_augur_node_data (m : List (String × SEntry)) : AugurData :=
  { nodes := m.map (fun pr => (pr.1, (true, pr.2.confTrue, pr.2.segments))),
    branches := (m.filter (fun pr => pr.2.segments ≠ "")).map (fun pr =>
      let segs := (pySplitOn ',' pr.2.segments.toList).map
        (fun piece => (pyStripIf isPyWs piece).asString)
      (pr.1, toString segs.length ++ " (" ++ pyJoin ", " segs ++ ")")) }

/-- mapper.py lines 301-317: after the loop, the summary print evaluates
`mapped_count/high_confidence_count` — a ZeroDivisionError when no
annotation was high-confidence — and then the labeled tree and the augur
node data are written unconditionally (there is no skip for an empty
report). -/
def runTail (mapped : List (String × SEntry)) (high : Nat) :
    Except String AugurData :=
  if high = 0 then Except.error "ZeroDivisionError"
  else Except.ok (create_augur_node_data mapped)

/-- mapper.py `main` (lines 225-319), with the file reads replaced by their
contents: build the source map, build the target maps, run the aggregation
loop, then the run tail.  (The leaf-consistency warnings of lines 248-267
only print and are omitted.) -/
def runMain (summary : List (String × SEntry)) (source_tree_string : String)
    (t : PTree) (choice : Finset String → String) : Except String AugurData :=
  let source_leaf_map := build_source_leaf_map_from_tree_string source_tree_string
  let inv := (build_target_leaf_map t).2
  let res := processSummary summary source_leaf_map t inv choice
  runTail res.1 res.2.1

/-- Two distinct high-confidence annotation payloads. -/
def d1 : SEntry := ⟨"True", mkRat 99 100, "HA"⟩

/-- A second payload, different from `d1`. -/
def d2 : SEntry := ⟨"True", mkRat 97 100, "NA,PB2"⟩

/-- C1 fails on the code: when the two distinct source annotations TS_1 and
TS_2 both resolve to the target node N0 of ((A,B)N0,C)R, the report keeps
ONLY the later payload d2 — the dict assignment at mapper.py line 293
overwrites d1 — even though both were counted as mapped. -/
theorem C1_later_annotation_overwrites_earlier :
    processSummary [("TS_1", d1), ("TS_2", d2)]
        [("TS_1", {"A", "B"}), ("TS_2", {"A", "B"})] tC6
        (build_target_leaf_map tC6).2 (fun _ => "A") =
      ([("N0", d2)], 2, 2) ∧ d1 ≠ d2 := by
  refine ⟨by decide, by decide⟩

/-- C3 counterexample: with an empty summary (so no annotation meets the
confidence threshold and the report is empty) the run does NOT complete:
the success-rate statistic divides by zero and the run aborts before any
export, contradicting the claimed non-fatal skip-with-warning. -/
theorem C3_empty_report_fatal_cex :
    runMain [] "((A,B)N0,C)R;" tC6 (fun _ => "A") =
      Except.error "ZeroDivisionError" := rfl

/-- C3 (amended).  An empty report is fatal when it stems from zero
high-confidence annotations (ZeroDivisionError in the success-rate print);
when at least one annotation is high-confidence, the run completes even if
nothing resolved, and the export steps are NOT skipped: the augur artifact
is written regardless, with an empty node set for an empty report. -/
theorem C3_empty_report_behavior (summary : List (String × SEntry))
    (src : String) (t : PTree) (choice : Finset String → String)
    (m : List (String × SEntry)) (high cnt : Nat)
    (hrun : processSummary summary (build_source_leaf_map_from_tree_string src) t
        (build_target_leaf_map t).2 choice = (m, high, cnt)) :
    (high = 0 → runMain summary src t choice = Except.error "ZeroDivisionError") ∧
    (high ≠ 0 → runMain summary src t choice =
      Except.ok (create_augur_node_data m)) ∧
    (create_augur_node_data []).nodes = [] := by
  refine ⟨?_, ?_, rfl⟩
  · intro h
    simp [runMain, runTail, hrun, h]
  · intro h
    simp [runMain, runTail, hrun, h]

/-- Witness for the amended C3 theorem: one high-confidence annotation whose
source label TS_9 is absent from the source map gives an empty report with
high_confidence_count 1; the run completes and exports an artifact with an
empty node set. -/
theorem C3_empty_report_behavior_witness :
    ((1 : Nat) = 0 → runMain [("TS_9", d1)] "(A,B);" tC6 (fun _ => "A") =
        Except.error "ZeroDivisionError") ∧
    ((1 : Nat) ≠ 0 → runMain [("TS_9", d1)] "(A,B);" tC6 (fun _ => "A") =
        Except.ok (create_augur_node_data [])) ∧
    (create_augur_node_data []).nodes = [] :=
  C3_empty_report_behavior [("TS_9", d1)] "(A,B);" tC6 (fun _ => "A") [] 1 0 (by decide)
